import Mathlib

/-!
# Verification of `valence_terrain`

Shallow embedding, in Lean 4, of the core logic of the `valence_terrain`
repository (`src/lib.rs`, `src/noise_builder.rs`):

* the per-column synthesis algorithm of `chunk_worker` (lib.rs:225-270),
* the pending-work bookkeeping of `update_client_views` (lib.rs:150-196)
  and `send_recv_chunks` (lib.rs:198-223),
* the generator construction / reload (lib.rs:104-142),
* the prefix-notation noise-expression parser (noise_builder.rs:82-136).

Machine integers that can never overflow at the sizes the claims exercise
(`u16` thicknesses, `u64` priorities, chunk heights) are modelled as `Nat`;
the one machine computation that can overflow — the `u16` surface-height
sum of lib.rs:231 — is modelled with its release-build wrap
(`surfaceHeight`, reduction mod `2^16`).  The worker's `i32` bookkeeping
variables (`rem`, `curidx`, the clamped height) are modelled as `Int`.  A
Rust panic (index out of bounds, `clamp` with `min > max`, a failed
`assert!`) is modelled as `Option.none`.
-/

set_option maxRecDepth 8000

namespace ValenceTerrain

/-- Model of `valence::BlockState`: the distinguished `AIR` block used by the
worker, the blocks appearing in the claims, and a catch-all for the rest of
the (large, finite) block enumeration. -/
inductive Blk where
  | air
  | stone
  | dirt
  | grass
  | other (id : Nat)
deriving DecidableEq, Repr

/-- A surface-layer list: `(thickness, material)` pairs ordered bottom → top,
mirroring `surface_layers: Vec<(u16, BlockState)>` (lib.rs:34). -/
abbrev Layers := List (Nat × Blk)

/-- The mathematical total surface thickness `T = Σ thickness_i`
(spec §4.2).  This unbounded sum is what the discard loop accumulates step
by step (lib.rs:245 adds the individual `u16` values, each cast to `i32`),
and is the quantity the shape lemmas below reason with. -/
def sumThickness (layers : Layers) : Nat := (layers.map Prod.fst).sum

/-- `layers.iter().map(|(a, _)| a).sum::<u16>() as i32` (lib.rs:231): the
surface height the worker actually computes.  The sum is taken in `u16`, so
in a release build it wraps modulo `2^16` once the total thickness reaches
65536 (a debug build panics there instead; either way the claimed column
shape is lost, see the C2 counterexample). -/
def surfaceHeight (layers : Layers) : Nat := sumThickness layers % 65536

/-- The worker's bottom-layer-discard loop (lib.rs:243-246):

```
while rem <= 0 {
    curidx += 1;
    rem += layers[curidx as usize].0 as i32
}
```

The list argument is the suffix of the layer list starting at index
`curidx + 1` (the element the next iteration would read); `none` models the
out-of-bounds panic of `layers[curidx as usize]`. -/
def discardLoop (rem curidx : Int) : Layers → Option (Int × Int)
  | [] => if rem ≤ 0 then none else some (rem, curidx)
  | (t, _) :: rest =>
    if rem ≤ 0 then discardLoop (rem + (t : Int)) (curidx + 1) rest
    else some (rem, curidx)

/-- One execution of the body of `for y in 0..chunk.height()` (lib.rs:247-265)
from state `(rem, curidx)`: returns the block written at this `y` and the
state for the next iteration.

```
if rem == 0 {
    curidx += 1;
    rem = if (curidx as usize) < layers.len() { layers[curidx as usize].0 as i32 } else { 0 };
}
rem -= 1;
let res_block = if curidx == -1 { block }
    else if rem < 0 { BlockState::AIR }
    else { layers[curidx as usize].1 };
```

The unchecked material read `layers[curidx as usize].1` is modelled with
`getD`; it is only reached with `0 ≤ curidx` and `rem ≥ 0`, states in which
the index is in bounds (the thickness read just above it is bounds-checked
by the source itself, and is modelled with the same guard). -/
def fillStep (block : Blk) (layers : Layers) (rem curidx : Int) :
    Blk × Int × Int :=
  let c := if rem = 0 then curidx + 1 else curidx
  let r : Int :=
    if rem = 0 then
      if 0 ≤ c ∧ c < (layers.length : Int) then ((layers.getD c.toNat (0, .air)).1 : Int)
      else 0
    else rem
  let r' := r - 1
  let b :=
    if c = -1 then block
    else if r' < 0 then Blk.air
    else (layers.getD c.toNat (0, .air)).2
  (b, r', c)

/-- The full `for y in 0..chunk.height()` loop (lib.rs:247-265): the list of
blocks written at `y = 0, 1, …` for `n` iterations, starting from state
`(rem, curidx)`. -/
def fillLoop (block : Blk) (layers : Layers) : Nat → Int → Int → List Blk
  | 0, _, _ => []
  | n + 1, rem, curidx =>
    let s := fillStep block layers rem curidx
    s.1 :: fillLoop block layers n s.2.1 s.2.2

/-- Rust's `Ord::clamp` on `i32` (used at lib.rs:238): panics (modelled as
`none`) when `lo > hi`, otherwise `max lo (min v hi)`. -/
def clampI (v lo hi : Int) : Option Int :=
  if lo ≤ hi then some (max lo (min v hi)) else none

/-- One vertical column produced by `chunk_worker` (lib.rs:231-265) for a
height sample `noiseVal` (the `i32` the noise value was cast to): clamp to
`[1, height-1]`, run the discard loop from `rem = h - surface_height`,
`curidx = -1`, then fill `height` cells bottom-up. -/
def synthColumn (block : Blk) (layers : Layers) (height : Nat) (noiseVal : Int) :
    Option (List Blk) := do
  let h ← clampI noiseVal 1 ((height : Int) - 1)
  let (rem, curidx) ← discardLoop (h - (surfaceHeight layers : Int)) (-1) layers
  pure (fillLoop block layers height rem curidx)

/-- The column at in-chunk offset `(offX, offZ)` of chunk `pos = (chunkX,
chunkZ)` as synthesized by `chunk_worker` (lib.rs:232-238): the height sample
is the noise function evaluated at the world coordinates
`(offset + pos * 16)`.  `noise` is the composite of `state.noise.get` and the
`as i32` cast. -/
def workerColumn (block : Blk) (layers : Layers) (height : Nat)
    (noise : Int → Int → Int) (chunkX chunkZ offX offZ : Int) :
    Option (List Blk) :=
  synthColumn block layers height (noise (offX + chunkX * 16) (offZ + chunkZ * 16))

/-- The block the fill loop writes while counting down inside the current
run (`curidx = -1` means the base fill, otherwise the layer at `curidx`):
used to state the shape lemmas about `fillLoop`. -/
def blkAt (block : Blk) (layers : Layers) (c : Int) : Blk :=
  if c = -1 then block else (layers.getD c.toNat (0, Blk.air)).2

/-- The block sequence of a stack of surface layers laid out bottom → top:
each `(t, m)` contributes `t` cells of `m`. -/
def flatRep : Layers → List Blk
  | [] => []
  | (t, m) :: rest => List.replicate t m ++ flatRep rest

/-- C3: the expected column for the first end-to-end profile. -/
def column10 : List Blk :=
  List.replicate 6 .stone ++ List.replicate 3 .dirt ++ [.grass] ++ List.replicate 118 .air

/-- C4: the expected column for the truncated end-to-end profile. -/
def column2 : List Blk :=
  [.dirt, .grass] ++ List.replicate 126 .air

/-- The `NoiseBuilder` expression tree (noise_builder.rs:13-30).  Numeric
payloads hold the parsed `f64` / `i32` / `u32` values (`u32` as `Nat`). -/
inductive NB where
  | constant (v : Float)
  | abs (e : NB)
  | neg (e : NB)
  | min (a b : NB)
  | max (a b : NB)
  | add (a b : NB)
  | mul (a b : NB)
  | pow (a b : NB)
  | powI (i : Int) (e : NB)
  | scaleInput (x y : Float) (e : NB)
  | clamp (lo hi : Float) (e : NB)
  | checkerboard
  | perlin (seed : Nat)
  | simplex (seed : Nat)

/-- Accumulating splitter behind `tokenize`: walks the characters, cutting a
token at every whitespace run (`acc` holds the current token reversed). -/
def tokenizeAux : List Char → List Char → List String
  | [], acc => if acc = [] then [] else [String.mk acc.reverse]
  | c :: cs, acc =>
    if c.isWhitespace then
      if acc = [] then tokenizeAux cs []
      else String.mk acc.reverse :: tokenizeAux cs []
    else tokenizeAux cs (c :: acc)

/-- `string.split_whitespace()` (noise_builder.rs:83): the maximal nonempty
runs of non-whitespace characters, in order.  (Rust recognizes the full
Unicode White_Space set; `Char.isWhitespace` covers the ASCII subset, which
is all the grammar's tokens can be separated by in practice.) -/
def tokenize (s : String) : List String := tokenizeAux s.data []

/-- Result of one `from_tokens` call: either a node with the remaining
token stream, or an error message together with the stream left at the
failure point — the state of the Rust iterator, which `parse` inspects
afterwards for its trailing-token check. -/
inductive PR where
  | ok (e : NB) (rest : List String)
  | err (msg : String) (rest : List String)

/-- `NoiseBuilder::from_tokens` (noise_builder.rs:92-118) together with the
`parse::<T>` helper (noise_builder.rs:128-136), inlined at each numeric
position.  `pf`, `pi`, `pu` model `str::parse` at `f64`, `i32` and `u32`;
error messages are modelled without the quote characters the Rust `format!`
puts around the offending token.

The Rust recursion terminates because every recursive call consumes at
least one token; here that is expressed with a structural `fuel` counter.
`fromTokens` below instantiates `fuel = ts.length + 1`, which is proved
sufficient (`fromTokensF_fuel_irrelevant`): the `"out of fuel"` branch is
unreachable for that instantiation. -/
def fromTokensF (pf : String → Option Float) (pi : String → Option Int)
    (pu : String → Option Nat) : Nat → List String → PR
  | 0, ts => .err "out of fuel" ts
  | fuel + 1, ts =>
    match ts with
    | [] => .err "Not enough tokens" []
    | t :: rest =>
      if t = "c" then
        match rest with
        | [] => .err "Expected float, but ran out of tokens" []
        | v :: rest1 =>
          match pf v with
          | some x => .ok (.constant x) rest1
          | none => .err ("could not parse float " ++ v) rest1
      else if t = "abs" then
        match fromTokensF pf pi pu fuel rest with
        | .ok e r => .ok (.abs e) r
        | .err m r => .err m r
      else if t = "neg" then
        match fromTokensF pf pi pu fuel rest with
        | .ok e r => .ok (.neg e) r
        | .err m r => .err m r
      else if t = "add" then
        match fromTokensF pf pi pu fuel rest with
        | .ok a r =>
          match fromTokensF pf pi pu fuel r with
          | .ok b r2 => .ok (.add a b) r2
          | .err m r2 => .err m r2
        | .err m r => .err m r
      else if t = "mul" then
        match fromTokensF pf pi pu fuel rest with
        | .ok a r =>
          match fromTokensF pf pi pu fuel r with
          | .ok b r2 => .ok (.mul a b) r2
          | .err m r2 => .err m r2
        | .err m r => .err m r
      else if t = "min" then
        match fromTokensF pf pi pu fuel rest with
        | .ok a r =>
          match fromTokensF pf pi pu fuel r with
          | .ok b r2 => .ok (.min a b) r2
          | .err m r2 => .err m r2
        | .err m r => .err m r
      else if t = "max" then
        match fromTokensF pf pi pu fuel rest with
        | .ok a r =>
          match fromTokensF pf pi pu fuel r with
          | .ok b r2 => .ok (.max a b) r2
          | .err m r2 => .err m r2
        | .err m r => .err m r
      else if t = "pow" then
        match fromTokensF pf pi pu fuel rest with
        | .ok a r =>
          match fromTokensF pf pi pu fuel r with
          | .ok b r2 => .ok (.pow a b) r2
          | .err m r2 => .err m r2
        | .err m r => .err m r
      else if t = "powi" then
        match rest with
        | [] => .err "Expected float, but ran out of tokens" []
        | v :: rest1 =>
          match pi v with
          | some i =>
            match fromTokensF pf pi pu fuel rest1 with
            | .ok e r => .ok (.powI i e) r
            | .err m r => .err m r
          | none => .err ("could not parse float " ++ v) rest1
      else if t = "scalein" then
        match rest with
        | [] => .err "Expected float, but ran out of tokens" []
        | a :: rest1 =>
          match pf a with
          | none => .err ("could not parse float " ++ a) rest1
          | some x =>
            match rest1 with
            | [] => .err "Expected float, but ran out of tokens" []
            | b :: rest2 =>
              match pf b with
              | none => .err ("could not parse float " ++ b) rest2
              | some y =>
                match fromTokensF pf pi pu fuel rest2 with
                | .ok e r => .ok (.scaleInput x y e) r
                | .err m r => .err m r
      else if t = "clamp" then
        match rest with
        | [] => .err "Expected float, but ran out of tokens" []
        | a :: rest1 =>
          match pf a with
          | none => .err ("could not parse float " ++ a) rest1
          | some lo =>
            match rest1 with
            | [] => .err "Expected float, but ran out of tokens" []
            | b :: rest2 =>
              match pf b with
              | none => .err ("could not parse float " ++ b) rest2
              | some hi =>
                match fromTokensF pf pi pu fuel rest2 with
                | .ok e r => .ok (.clamp lo hi e) r
                | .err m r => .err m r
      else if t = "checkerboard" then
        .ok .checkerboard rest
      else if t = "perlin" then
        match rest with
        | [] => .err "Expected float, but ran out of tokens" []
        | v :: rest1 =>
          match pu v with
          | some seed => .ok (.perlin seed) rest1
          | none => .err ("could not parse float " ++ v) rest1
      else if t = "simplex" then
        match rest with
        | [] => .err "Expected float, but ran out of tokens" []
        | v :: rest1 =>
          match pu v with
          | some seed => .ok (.simplex seed) rest1
          | none => .err ("could not parse float " ++ v) rest1
      else
        .err ("Invalid token: " ++ t) rest

/-- `NoiseBuilder::from_tokens` on a token stream, with sufficient fuel. -/
def fromTokens (pf : String → Option Float) (pi : String → Option Int)
    (pu : String → Option Nat) (ts : List String) : PR :=
  fromTokensF pf pi pu (ts.length + 1) ts

/-- `NoiseBuilder::parse` (noise_builder.rs:82-90): tokenize, read one
expression, then fail with the trailing-token error if the iterator is not
exhausted — also when `from_tokens` itself failed with tokens left over,
exactly as the source does. -/
def parseNoise (pf : String → Option Float) (pi : String → Option Int)
    (pu : String → Option Nat) (s : String) : Except String NB :=
  match fromTokens pf pi pu (tokenize s) with
  | .ok e rest => if ¬ rest = [] then .error "too many tokens" else .ok e
  | .err msg rest => if ¬ rest = [] then .error "too many tokens" else .error msg

/-- Modelled from the spec (§4.1): the grammar of the noise expression
language, as a derivation relation over token streams.  `Wf pf pi pu ts
rest` holds when `ts` begins with one complete well-formed prefix-notation
expression (numeric positions holding tokens the corresponding numeric
parser accepts) and leaves exactly `rest`.  This is the specification side
of the parser claim, written from the spec's grammar, to be compared with
`fromTokens`, which is translated from the source. -/
inductive Wf (pf : String → Option Float) (pi : String → Option Int)
    (pu : String → Option Nat) : List String → List String → Prop where
  | const {v : String} {x : Float} {rest : List String} :
      pf v = some x → Wf pf pi pu ("c" :: v :: rest) rest
  | abs {ts rest : List String} :
      Wf pf pi pu ts rest → Wf pf pi pu ("abs" :: ts) rest
  | neg {ts rest : List String} :
      Wf pf pi pu ts rest → Wf pf pi pu ("neg" :: ts) rest
  | add {ts mid rest : List String} :
      Wf pf pi pu ts mid → Wf pf pi pu mid rest → Wf pf pi pu ("add" :: ts) rest
  | mul {ts mid rest : List String} :
      Wf pf pi pu ts mid → Wf pf pi pu mid rest → Wf pf pi pu ("mul" :: ts) rest
  | min {ts mid rest : List String} :
      Wf pf pi pu ts mid → Wf pf pi pu mid rest → Wf pf pi pu ("min" :: ts) rest
  | max {ts mid rest : List String} :
      Wf pf pi pu ts mid → Wf pf pi pu mid rest → Wf pf pi pu ("max" :: ts) rest
  | pow {ts mid rest : List String} :
      Wf pf pi pu ts mid → Wf pf pi pu mid rest → Wf pf pi pu ("pow" :: ts) rest
  | powi {v : String} {i : Int} {ts rest : List String} :
      pi v = some i → Wf pf pi pu ts rest → Wf pf pi pu ("powi" :: v :: ts) rest
  | scalein {a b : String} {x y : Float} {ts rest : List String} :
      pf a = some x → pf b = some y → Wf pf pi pu ts rest →
      Wf pf pi pu ("scalein" :: a :: b :: ts) rest
  | clamp {a b : String} {x y : Float} {ts rest : List String} :
      pf a = some x → pf b = some y → Wf pf pi pu ts rest →
      Wf pf pi pu ("clamp" :: a :: b :: ts) rest
  | checkerboard {rest : List String} :
      Wf pf pi pu ("checkerboard" :: rest) rest
  | perlin {v : String} {seed : Nat} {rest : List String} :
      pu v = some seed → Wf pf pi pu ("perlin" :: v :: rest) rest
  | simplex {v : String} {seed : Nat} {rest : List String} :
      pu v = some seed → Wf pf pi pu ("simplex" :: v :: rest) rest

/-- The shapes of error messages `from_tokens` can produce
(noise_builder.rs:96-136): truncated input, a bad numeric literal, or an
unknown token.  (`parse`'s own trailing-token message is added at the
`parseNoise` level.) -/
def ErrShape (msg : String) : Prop :=
  msg = "Not enough tokens" ∨ msg = "Expected float, but ran out of tokens" ∨
  (∃ u, msg = "Invalid token: " ++ u) ∨ (∃ u, msg = "could not parse float " ++ u)

/-- The invariant relating one `from_tokens` call on `ts` to its result:
success consumes at least one token and is derivable in the spec's grammar;
failure carries one of the documented error shapes. -/
def ParseInv (pf : String → Option Float) (pi : String → Option Int)
    (pu : String → Option Nat) (ts : List String) : PR → Prop
  | .ok _ rest => rest.length < ts.length ∧ Wf pf pi pu ts rest
  | .err msg _ => ErrShape msg

/-- Model of `valence::ChunkPos`: an integer `(x, z)` chunk coordinate. -/
structure ChunkPos where
  x : Int
  z : Int
deriving DecidableEq, Repr

/-- Model of the external collaborator `ChunkPos::distance_squared` used at
lib.rs:173/178: the squared Euclidean distance between two chunk positions
(the spec's priority metric, §4.3), a `u64` in the source. -/
def distanceSquared (a b : ChunkPos) : Nat :=
  ((b.x - a.x) ^ 2 + (b.z - a.z) ^ 2).toNat

/-- The Pending-Work Table `pending: HashMap<ChunkPos, Option<u64>>`
(lib.rs:97), modelled as an association list (with distinct keys where a
claim needs the `HashMap` key-uniqueness).  An entry `(pos, some p)` is
`Queued(p)`; `(pos, none)` is `InFlight`. -/
abbrev Pending := List (ChunkPos × Option Nat)

/-- `HashMap` lookup on the association-list model: the value at the first
entry whose key matches. -/
def lookupPending (p : Pending) (pos : ChunkPos) : Option (Option Nat) :=
  (p.find? (fun e => decide (e.1 = pos))).map (·.2)

/-- The `queue_pos` closure of `update_client_views` (lib.rs:168-183):

```
if layer.chunk(pos).is_none() {
    match terrain_gen.pending.entry(pos) {
        Entry::Occupied(mut oe) => {
            if let Some(priority) = oe.get_mut() {
                let dist = view.pos.distance_squared(pos);
                *priority = (*priority).min(dist);
            }
        }
        Entry::Vacant(ve) => {
            let dist = view.pos.distance_squared(pos);
            ve.insert(Some(dist));
        }
    }
}
```

`chunkAt` is the world-storage presence test `layer.chunk(pos).is_some()`;
`viewPos` is `view.pos`. -/
def queuePos (chunkAt : ChunkPos → Bool) (viewPos : ChunkPos) (pending : Pending)
    (pos : ChunkPos) : Pending :=
  if chunkAt pos then pending
  else
    match lookupPending pending pos with
    | some (some priority) =>
        pending.map (fun e =>
          if e.1 = pos then (e.1, some (min priority (distanceSquared viewPos pos))) else e)
    | some none => pending
    | none => pending ++ [(pos, some (distanceSquared viewPos pos))]

/-- The result-drain half of `send_recv_chunks` (lib.rs:202-205) for one
received result at `pos`: the chunk is inserted into the layer and the
pending entry removed, with `assert!(pending.remove(&pos).is_some())`;
`none` models the assertion failure (protocol violation). -/
def drainResult (pending : Pending) (pos : ChunkPos) : Option Pending :=
  if (lookupPending pending pos).isSome then
    some (pending.filter (fun e => decide (¬ e.1 = pos)))
  else none

/-- The `to_send` collection of `send_recv_chunks` (lib.rs:209-213): every
`Queued` entry's priority is `take`n and pushed as `(priority, pos)`. -/
def takeQueued (pending : Pending) : List (Nat × ChunkPos) :=
  pending.filterMap (fun e => e.2.map (fun pri => (pri, e.1)))

/-- `to_send.sort_unstable_by_key(|(pri, _)| *pri)` (lib.rs:216): the
collected queued entries sorted by ascending priority. -/
def toSendSorted (pending : Pending) : List (Nat × ChunkPos) :=
  (takeQueued pending).mergeSort (fun a b => decide (a.1 ≤ b.1))

/-- The dispatch half of `send_recv_chunks` (lib.rs:207-221): taking every
priority marks every entry `InFlight` (`priority.take()`), and each collected
position is offered to the request channel in sorted order with
`let _ = sender.try_send(pos)` — the result of `try_send` is discarded.
`sendOk` is the oracle recording which `try_send` calls succeed; the second
component is the list of positions actually accepted by the channel. -/
def flushDispatch (sendOk : ChunkPos → Bool) (pending : Pending) :
    Pending × List ChunkPos :=
  (pending.map (fun e => (e.1, (none : Option Nat))),
   ((toSendSorted pending).map (·.2)).filter sendOk)

/-- Model of the external collaborator `valence::ChunkView` (spec §4.4: a
center point and a radius). -/
structure ChunkView where
  pos : ChunkPos
  dist : Nat
deriving DecidableEq, Repr

/-- `ChunkView::with_dist`: the same view with the distance replaced. -/
def withDist (v : ChunkView) (d : Nat) : ChunkView := { v with dist := d }

/-- The render-distance clipping of `update_client_views` (lib.rs:161-166).
Note the source reassigns `view` first and then derives the old view's new
distance from the *already reassigned* `view`:

```
if terrain_gen.render_dist != 0 {
    view = view.with_dist(view.dist().min(terrain_gen.render_dist));
    old_view = old_view.with_dist(view.dist().min(terrain_gen.render_dist));
}
``` -/
def clipViews (renderDist : Nat) (view oldView : ChunkView) : ChunkView × ChunkView :=
  if renderDist ≠ 0 then
    let view' := withDist view (min view.dist renderDist)
    (view', withDist oldView (min view'.dist renderDist))
  else (view, oldView)

/-- The scheduler-side state of `TerrainGenerator` (lib.rs:93-102).  The two
flume channel endpoints are abstracted by an identity `channels` of the
channel pair they belong to; `TerrainGenerator::new` (lib.rs:106-128)
creates a fresh pair via `flume::unbounded()`, modelled by passing the fresh
identity as an argument. -/
structure Gen where
  pending : Pending
  channels : Nat
  renderDist : Nat
  needsReload : Bool
deriving DecidableEq, Repr

/-- `TerrainGenerator::new(config, render_dist)` (lib.rs:106-128): empty
pending table, freshly created channels, `needs_reload: true`, the given
render distance.  (The config itself is moved into the workers' shared
`ChunkWorkerState`, not stored in the generator.) -/
def terrainGenNew (renderDist : Nat) (freshChannels : Nat) : Gen :=
  { pending := [], channels := freshChannels, renderDist := renderDist,
    needsReload := true }

/-- `TerrainGenerator::reload` (lib.rs:139-141):
`*self = Self::new(config, self.render_dist)`. -/
def terrainGenReload (g : Gen) (freshChannels : Nat) : Gen :=
  terrainGenNew g.renderDist freshChannels

/-- `reload` with the world storage in view: `reload` borrows only the
generator (`&mut self`), so the layer's chunk storage (any map out of
`ChunkPos`) is passed through untouched. -/
def reloadWithStorage {α : Type} (storage : ChunkPos → α) (g : Gen)
    (freshChannels : Nat) : (ChunkPos → α) × Gen :=
  (storage, terrainGenReload g freshChannels)

end ValenceTerrain

namespace ValenceTerrain

/-- Helper: on a table whose keys are pairwise distinct, two entries with
the same key are the same entry. -/
theorem eq_of_mem_pending_of_nodup {p : Pending} {e e' : ChunkPos × Option Nat}
    (hnd : (p.map Prod.fst).Nodup) (he : e ∈ p) (he' : e' ∈ p)
    (hk : e.1 = e'.1) : e = e' := by
  induction p with
  | nil => cases he
  | cons a rest ih =>
    rw [List.map_cons, List.nodup_cons] at hnd
    rcases List.mem_cons.1 he with he0 | he1 <;>
      rcases List.mem_cons.1 he' with he0' | he1'
    · rw [he0, he0']
    · exact absurd (by rw [← he0, hk]; exact List.mem_map_of_mem Prod.fst he1') hnd.1
    · exact absurd (by rw [← he0', ← hk]; exact List.mem_map_of_mem Prod.fst he1) hnd.1
    · exact ih hnd.2 he1 he1'

/-- Helper: a successful lookup is the value of some entry of the table. -/
theorem lookupPending_mem {p : Pending} {pos : ChunkPos} {v : Option Nat}
    (h : lookupPending p pos = some v) : (pos, v) ∈ p := by
  unfold lookupPending at h
  rcases ho : p.find? (fun e => decide (e.1 = pos)) with _ | e
  · rw [ho] at h; cases h
  · rw [ho] at h
    have hmem := List.mem_of_find?_eq_some ho
    have hkey := List.find?_some ho
    simp only [decide_eq_true_eq] at hkey
    cases h
    have : e = (pos, e.2) := by
      cases e; simp_all
    rwa [← this]

/-- Helper: lookup after updating the value at `pos` (key kept) maps the
found value. -/
theorem lookupPending_mapUpdate (p : Pending) (pos : ChunkPos) (v : Option Nat) :
    lookupPending (p.map (fun e => if e.1 = pos then (e.1, v) else e)) pos
      = (lookupPending p pos).map (fun _ => v) := by
  induction p with
  | nil => rfl
  | cons a rest ih =>
    by_cases h : a.1 = pos
    · simp [lookupPending, List.find?, h]
    · simp only [List.map_cons, if_neg h]
      simp only [lookupPending, List.find?] at ih ⊢
      rw [show (decide (a.1 = pos)) = false by simp [h]]
      exact ih

/-- Helper: lookup in an appended singleton when the key is absent from the
prefix. -/
theorem lookupPending_append_of_none {p : Pending} {pos : ChunkPos}
    (h : lookupPending p pos = none) (v : Option Nat) :
    lookupPending (p ++ [(pos, v)]) pos = some v := by
  induction p with
  | nil => simp [lookupPending]
  | cons a rest ih =>
    by_cases hd : a.1 = pos
    · exfalso
      rw [lookupPending, List.find?_cons_of_pos _ (by simp [hd])] at h
      simp at h
    · rw [lookupPending, List.find?_cons_of_neg _ (by simp [hd])] at h
      rw [List.cons_append, lookupPending, List.find?_cons_of_neg _ (by simp [hd])]
      exact ih h

/-- Helper: lookup after updating the value at key `q` is unchanged at any
other key `pos` (the update keeps every key). -/
theorem lookupPending_mapUpdate_ne {q pos : ChunkPos} (hne : q ≠ pos)
    (p : Pending) (v : Option Nat) :
    lookupPending (p.map (fun e => if e.1 = q then (e.1, v) else e)) pos
      = lookupPending p pos := by
  induction p with
  | nil => rfl
  | cons a rest ih =>
    by_cases ha : a.1 = pos
    · have haq : ¬ a.1 = q := by rw [ha]; intro hh; exact hne hh.symm
      simp only [List.map_cons, if_neg haq]
      rw [lookupPending, List.find?_cons_of_pos _ (by simp [ha]),
          lookupPending, List.find?_cons_of_pos _ (by simp [ha])]
    · by_cases haq : a.1 = q
      · simp only [List.map_cons, if_pos haq]
        rw [lookupPending, List.find?_cons_of_neg _ (by simp [ha]),
            lookupPending, List.find?_cons_of_neg _ (by simp [ha])]
        exact ih
      · simp only [List.map_cons, if_neg haq]
        rw [lookupPending, List.find?_cons_of_neg _ (by simp [ha]),
            lookupPending, List.find?_cons_of_neg _ (by simp [ha])]
        exact ih

/-- Helper: a lookup that succeeds in a prefix also succeeds in the
extended table. -/
theorem lookupPending_append_left {p : Pending} {pos : ChunkPos} {v : Option Nat}
    (h : lookupPending p pos = some v) (l : Pending) :
    lookupPending (p ++ l) pos = some v := by
  unfold lookupPending at h ⊢
  rw [List.find?_append]
  rcases ho : p.find? (fun e => decide (e.1 = pos)) with _ | e
  · rw [ho] at h; simp at h
  · rw [ho] at h
    rw [ho]
    simpa [Option.or] using h

/-- Helper: the positions collected into `to_send` form a sublist of the
pending table's keys. -/
theorem takeQueued_map_snd_sublist (p : Pending) :
    ((takeQueued p).map (·.2)).Sublist (p.map Prod.fst) := by
  induction p with
  | nil => simp [takeQueued]
  | cons e rest ih =>
    rcases he : e.2 with _ | pri
    · simp only [takeQueued, List.filterMap_cons, he, Option.map_none', List.map_cons]
      exact ih.cons e.1
    · simp only [takeQueued, List.filterMap_cons, he, Option.map_some', List.map_cons]
      exact ih.cons₂ e.1

/-- Helper: the discard loop, started anywhere with a positive total budget,
returns without running off the end of the layer list, with a positive `rem`
and an index that advanced by at most the suffix length. -/
theorem discardLoop_total (ls : Layers) : ∀ rem curidx : Int,
    0 < rem + (sumThickness ls : Int) →
    ∃ r c, discardLoop rem curidx ls = some (r, c) ∧ 0 < r ∧
      c ≤ curidx + (ls.length : Int) := by
  induction ls with
  | nil =>
    intro rem c h
    have h0 : (0 : Int) < rem := by simp [sumThickness] at h; omega
    refine ⟨rem, c, ?_, h0, by simp⟩
    rw [discardLoop, if_neg (by omega)]
  | cons a rest ih =>
    obtain ⟨t, m⟩ := a
    intro rem c h
    have hsum : sumThickness ((t, m) :: rest) = t + sumThickness rest := by
      simp [sumThickness]
    rw [hsum] at h; push_cast at h
    by_cases hr : rem ≤ 0
    · rcases ih (rem + t) (c + 1) (by omega) with ⟨r, c', hd, hr', hc⟩
      refine ⟨r, c', ?_, hr', by simp only [List.length_cons]; push_cast; omega⟩
      rw [discardLoop, if_pos hr]
      exact hd
    · refine ⟨rem, c, ?_, by omega, by simp only [List.length_cons]; push_cast; omega⟩
      rw [discardLoop, if_neg hr]

/-- Helper: the fill loop writes exactly one block per iteration. -/
theorem fillLoop_length (block : Blk) (layers : Layers) :
    ∀ (n : Nat) (rem c : Int), (fillLoop block layers n rem c).length = n := by
  intro n
  induction n with
  | zero => intro rem c; rfl
  | succ n ih => intro rem c; rw [fillLoop]; simp [ih]

/-- Helper: with a nonnegative countdown `rem`, the fill loop emits `rem`
copies of the current run's block (base fill or current layer material) and
then continues from countdown `0` in the same run. -/
theorem fillLoop_run (block : Blk) (layers : Layers) :
    ∀ (n : Nat) (rem c : Int), 0 ≤ rem →
    fillLoop block layers n rem c
      = List.replicate (min n rem.toNat) (blkAt block layers c)
        ++ fillLoop block layers (n - rem.toNat) 0 c := by
  intro n
  induction n with
  | zero => intro rem c _; simp [fillLoop]
  | succ n ih =>
    intro rem c h
    rcases eq_or_lt_of_le h with h0 | hpos
    · rw [← h0]
      simp
    · have hne : rem ≠ 0 := by omega
      have hr1 : ¬ (rem - 1 < 0) := by omega
      rw [fillLoop]
      have hstep : fillStep block layers rem c = (blkAt block layers c, rem - 1, c) := by
        simp [fillStep, blkAt, hne, hr1]
      rw [hstep]
      have h1 : rem.toNat = (rem - 1).toNat + 1 := by omega
      rw [ih (rem - 1) c (by omega), h1]
      simp [Nat.succ_min_succ, List.replicate_succ, Nat.succ_sub_succ]

/-- Helper: once the countdown is negative outside the base run, every
remaining cell is air (the `rem == 0` reset can never fire again). -/
theorem fillLoop_air (block : Blk) (layers : Layers) :
    ∀ (n : Nat) (rem c : Int), rem < 0 → c ≠ -1 →
    fillLoop block layers n rem c = List.replicate n Blk.air := by
  intro n
  induction n with
  | zero => intro rem c _ _; rfl
  | succ n ih =>
    intro rem c hr hc
    have hne : rem ≠ 0 := by omega
    rw [fillLoop]
    have hstep : fillStep block layers rem c = (Blk.air, rem - 1, c) := by
      simp [fillStep, hne, hc, (by omega : rem - 1 < 0)]
    rw [hstep]
    rw [ih (rem - 1) c (by omega) hc, List.replicate_succ]

/-- Helper: at countdown `0` with a next layer available (index `c + 1` in
bounds, positive thickness `t`), the fill loop behaves exactly like the loop
restarted in that layer with countdown `t`. -/
theorem fillLoop_advance (block : Blk) (layers : Layers)
    (c : Int) (t : Nat) (m : Blk) (hc : -1 ≤ c) (hlt : c + 1 < (layers.length : Int))
    (hget : layers.getD (c + 1).toNat (0, Blk.air) = (t, m)) (ht : 1 ≤ t) :
    ∀ n : Nat, fillLoop block layers n 0 c = fillLoop block layers n (t : Int) (c + 1) := by
  intro n
  cases n with
  | zero => rfl
  | succ n =>
    rw [fillLoop, fillLoop]
    have hb : (c + 1).toNat < layers.length := by omega
    have hgetE : layers[(c + 1).toNat] = (t, m) := by
      rw [← List.getD_eq_getElem layers (0, Blk.air) hb]; exact hget
    have g1 : (0 : Int) ≤ c + 1 := by omega
    have g2 : ¬ (c + 1 = -1) := by omega
    have g3 : ¬ ((t : Int) - 1 < 0) := by omega
    have g4 : ¬ (t = 0) := by omega
    have h1 : fillStep block layers 0 c = (m, (t : Int) - 1, c + 1) := by
      simp [fillStep, g1, g2, g3, g4, hlt, hget, hgetE]
    have h2 : fillStep block layers (t : Int) (c + 1) = (m, (t : Int) - 1, c + 1) := by
      simp [fillStep, g1, g2, g3, g4, hlt, hget, hgetE, (by omega : ¬ ((t : Int) = 0))]
    rw [h1, h2]

/-- Helper: at countdown `0` with no next layer (index `c + 1` past the end),
the fill loop emits only air from here on. -/
theorem fillLoop_end (block : Blk) (layers : Layers)
    (c : Int) (hc : -1 ≤ c) (hge : (layers.length : Int) ≤ c + 1) :
    ∀ n : Nat, fillLoop block layers n 0 c = List.replicate n Blk.air := by
  intro n
  cases n with
  | zero => rfl
  | succ n =>
    rw [fillLoop]
    have h1 : fillStep block layers 0 c = (Blk.air, -1, c + 1) := by
      simp [fillStep, hge, (by omega : ¬ (c + 1 = -1)), (by omega : (0 : Int) ≤ c + 1)]
      rw [if_neg (show ¬ (c + 1 = -1) from by omega),
          if_neg (show ¬ (c + 1 < (layers.length : Int)) from by omega)]
      norm_num
    rw [h1]
    rw [fillLoop_air block layers n (-1) (c + 1) (by omega) (by omega), List.replicate_succ]

/-- Helper: the laid-out layer stack has exactly the total surface thickness
as its length. -/
theorem flatRep_length (ls : Layers) : (flatRep ls).length = sumThickness ls := by
  induction ls with
  | nil => rfl
  | cons a rest ih =>
    obtain ⟨t, m⟩ := a
    simp only [flatRep, List.length_append, List.length_replicate, ih]
    simp [sumThickness]

/-- Helper: a nonempty stack of positive-thickness layers, laid out, ends
with the topmost layer's material as its very last cell. -/
theorem flatRep_last (ls : Layers) : ∀ (hpos : ∀ p ∈ ls, 0 < p.1) (hne : ls ≠ []),
    ∃ pre : List Blk, flatRep ls = pre ++ [(ls.getLast hne).2] ∧
      pre.length + 1 = sumThickness ls := by
  induction ls with
  | nil => intro _ hne; exact absurd rfl hne
  | cons a rest ih =>
    intro hpos hne
    obtain ⟨t, m⟩ := a
    cases rest with
    | nil =>
      have ht : 0 < t := hpos (t, m) (List.mem_singleton.mpr rfl)
      refine ⟨List.replicate (t - 1) m, ?_, ?_⟩
      · rw [flatRep, flatRep, List.append_nil]
        have hrep : List.replicate t m = List.replicate (t - 1) m ++ [m] := by
          conv_lhs => rw [show t = (t - 1) + 1 from by omega]
          exact List.replicate_succ' (t - 1) m
        rw [hrep]
        simp
      · simp [sumThickness]
        omega
    | cons b rest' =>
      rcases ih (fun p hp => hpos p (List.mem_cons_of_mem _ hp)) (by simp) with
        ⟨pre, hpre, hlen⟩
      refine ⟨List.replicate t m ++ pre, ?_, ?_⟩
      · rw [flatRep, hpre, List.getLast_cons (by simp : (b :: rest') ≠ []),
          List.append_assoc]
      · simp only [List.length_append, List.length_replicate]
        simp [sumThickness] at hlen ⊢
        omega

/-- Helper: any cell of a replicated list read with the replicated value as
the default is that value, in or out of range. -/
theorem getD_replicate_self (n i : Nat) (a : Blk) :
    (List.replicate n a).getD i a = a := by
  rcases Nat.lt_or_ge i n with hi | hi
  · rw [List.getD_eq_getElem _ _ (by simpa using hi)]
    simp
  · rw [List.getD_eq_default]
    simpa using hi

/-- Helper: the discard loop consumes an initial segment of the layer list:
it stops after some `k ≤ length` steps with `rem` increased by the
thickness of the `k` consumed layers, positive, and `curidx` advanced by
`k`. -/
theorem discardLoop_spec (ls : Layers) : ∀ (rem c : Int),
    0 < rem + (sumThickness ls : Int) →
    ∃ k : Nat, k ≤ ls.length ∧
      discardLoop rem c ls = some (rem + (sumThickness (ls.take k) : Int), c + k) ∧
      0 < rem + (sumThickness (ls.take k) : Int) := by
  induction ls with
  | nil =>
    intro rem c h
    simp only [sumThickness, List.map_nil, List.sum_nil, Nat.cast_zero, add_zero] at h
    refine ⟨0, le_refl _, ?_, by simpa [sumThickness] using h⟩
    rw [discardLoop, if_neg (by omega)]
    simp [sumThickness]
  | cons a rest ih =>
    obtain ⟨t, m⟩ := a
    intro rem c h
    have hsum : sumThickness ((t, m) :: rest) = t + sumThickness rest := by
      simp [sumThickness]
    by_cases hr : rem ≤ 0
    · rcases ih (rem + t) (c + 1) (by rw [hsum] at h; push_cast at h ⊢; omega) with
        ⟨k, hk, hd, hp⟩
      have htake : sumThickness (((t, m) :: rest).take (k + 1))
          = t + sumThickness (rest.take k) := by
        rw [List.take_succ_cons]
        simp [sumThickness]
      refine ⟨k + 1, by simpa using hk, ?_, ?_⟩
      · rw [discardLoop, if_pos hr, hd, htake]
        push_cast
        rw [show rem + ((t : Int) + (sumThickness (rest.take k) : Int))
            = rem + (t : Int) + (sumThickness (rest.take k) : Int) from by ring,
          show c + ((k : Int) + 1) = c + 1 + (k : Int) from by ring]
      · rw [htake]; push_cast at hp ⊢; omega
    · refine ⟨0, Nat.zero_le _, ?_, by simpa [sumThickness] using by omega⟩
      rw [discardLoop, if_neg hr]
      simp [sumThickness]

/-- Helper: the full shape of the fill loop.  Starting inside the run that
ends layer index `j - 1` (base fill for `j = 0`) with `r > 0` cells left in
the run and the layers from index `j` still to lay out, the loop produces:
`r` cells of the current run's block, then the remaining layers bottom → top,
then air. -/
theorem fillLoop_stack (block : Blk) (layers : Layers)
    (hpos : ∀ p ∈ layers, 0 < p.1) :
    ∀ (ls : Layers) (j : Nat), layers.drop j = ls →
    ∀ (n : Nat) (r : Int), 0 < r →
    r.toNat + sumThickness ls ≤ n →
    fillLoop block layers n r ((j : Int) - 1)
      = List.replicate r.toNat (blkAt block layers ((j : Int) - 1))
        ++ flatRep ls
        ++ List.replicate (n - (r.toNat + sumThickness ls)) Blk.air := by
  intro ls
  induction ls with
  | nil =>
    intro j hdrop n r hr hn
    have hj : layers.length ≤ j := List.drop_eq_nil_iff.mp hdrop
    rw [fillLoop_run block layers n r _ (le_of_lt hr)]
    simp only [sumThickness, List.map_nil, List.sum_nil, Nat.add_zero] at hn
    have hmin : min n r.toNat = r.toNat := by omega
    rw [hmin, fillLoop_end block layers ((j : Int) - 1) (by omega)
      (by push_cast; omega)]
    simp [flatRep, sumThickness]
  | cons a rest ih =>
    obtain ⟨t, m⟩ := a
    intro j hdrop n r hr hn
    have hjlt : j < layers.length := by
      have hlen := congrArg List.length hdrop
      simp only [List.length_drop, List.length_cons] at hlen
      omega
    have hget? : layers[j]? = some (t, m) := by
      have hd0 := List.getElem?_drop layers j 0
      rw [hdrop] at hd0
      simpa using hd0.symm
    have hgetD : layers.getD j (0, Blk.air) = (t, m) := by
      rw [List.getD_eq_getElem?_getD, hget?]
      rfl
    have hmem : (t, m) ∈ layers := by
      rcases List.getElem?_eq_some_iff.mp hget? with ⟨hlt, hEq⟩
      exact hEq ▸ List.getElem_mem hlt
    have ht : 0 < t := hpos (t, m) hmem
    have hsum : sumThickness ((t, m) :: rest) = t + sumThickness rest := by
      simp [sumThickness]
    rw [hsum] at hn
    -- run through the current block of `r` cells
    rw [fillLoop_run block layers n r _ (le_of_lt hr)]
    have hmin : min n r.toNat = r.toNat := by omega
    rw [hmin]
    -- advance into the layer at index j
    have hadv := fillLoop_advance block layers ((j : Int) - 1) t m (by omega)
      (by push_cast; omega)
      (by rw [show (j : Int) - 1 + 1 = (j : Int) from by ring, Int.toNat_natCast]
          exact hgetD) ht (n - r.toNat)
    rw [hadv]
    -- recurse on the remaining layers with the induction hypothesis
    have hdrop' : layers.drop (j + 1) = rest := by
      rw [← List.tail_drop, hdrop]
      rfl
    have ihs := ih (j + 1) hdrop' (n - r.toNat) (t : Int) (by omega)
      (by rw [Int.toNat_natCast]; omega)
    rw [show ((j + 1 : Nat) : Int) - 1 = (j : Int) - 1 + 1 from by push_cast; ring,
      Int.toNat_natCast] at ihs
    rw [ihs]
    -- identify the new run's block with the layer's material and reassemble
    have hblk : blkAt block layers ((j : Int) - 1 + 1) = m := by
      rw [blkAt, if_neg (by omega : ¬ ((j : Int) - 1 + 1 = -1)),
        show (j : Int) - 1 + 1 = (j : Int) from by ring, Int.toNat_natCast, hgetD]
    rw [hblk, flatRep, hsum]
    rw [show n - r.toNat - (t + sumThickness rest)
        = n - (r.toNat + (t + sumThickness rest)) from by omega]
    simp [List.append_assoc]

/-- Helper: `getD` past the left part of an append reads the right part. -/
theorem getD_append_right_len {l1 l2 : List Blk} {i : Nat} (d : Blk)
    (h : l1.length ≤ i) : (l1 ++ l2).getD i d = l2.getD (i - l1.length) d := by
  simp [List.getD_eq_getElem?_getD, List.getElem?_append_right h]

/-- Helper: `getD` inside the left part of an append reads the left part. -/
theorem getD_append_left_len {l1 l2 : List Blk} {i : Nat} (d : Blk)
    (h : i < l1.length) : (l1 ++ l2).getD i d = l1.getD i d := by
  simp [List.getD_eq_getElem?_getD, List.getElem?_append_left h]

/-- Helper: a well-formed expression consumes at least one token. -/
theorem Wf_length (pf : String → Option Float) (pi : String → Option Int)
    (pu : String → Option Nat) {ts rest : List String}
    (h : Wf pf pi pu ts rest) : rest.length < ts.length := by
  induction h with
  | const _ => simp only [List.length_cons]; omega
  | abs _ ih => simp only [List.length_cons]; omega
  | neg _ ih => simp only [List.length_cons]; omega
  | add _ _ ih1 ih2 => simp only [List.length_cons]; omega
  | mul _ _ ih1 ih2 => simp only [List.length_cons]; omega
  | min _ _ ih1 ih2 => simp only [List.length_cons]; omega
  | max _ _ ih1 ih2 => simp only [List.length_cons]; omega
  | pow _ _ ih1 ih2 => simp only [List.length_cons]; omega
  | powi _ _ ih => simp only [List.length_cons]; omega
  | scalein _ _ _ ih => simp only [List.length_cons]; omega
  | clamp _ _ _ ih => simp only [List.length_cons]; omega
  | checkerboard => simp only [List.length_cons]; omega
  | perlin _ => simp only [List.length_cons]; omega
  | simplex _ => simp only [List.length_cons]; omega

/-- Helper: `ParseInv` on a success, unfolded. -/
theorem ParseInv_ok_intro {pf : String → Option Float} {pi : String → Option Int}
    {pu : String → Option Nat} {ts : List String} {e : NB} {rest : List String}
    (h : rest.length < ts.length ∧ Wf pf pi pu ts rest) :
    ParseInv pf pi pu ts (.ok e rest) := h

/-- Helper: `ParseInv` on a failure, unfolded. -/
theorem ParseInv_err_intro {pf : String → Option Float} {pi : String → Option Int}
    {pu : String → Option Nat} {ts : List String} {msg : String} {rest : List String}
    (h : ErrShape msg) : ParseInv pf pi pu ts (.err msg rest) := h

/-- Helper: `ParseInv` on a success read back. -/
theorem ParseInv_ok_elim {pf : String → Option Float} {pi : String → Option Int}
    {pu : String → Option Nat} {ts : List String} {e : NB} {rest : List String}
    (h : ParseInv pf pi pu ts (.ok e rest)) :
    rest.length < ts.length ∧ Wf pf pi pu ts rest := h

/-- Helper: `ParseInv` on a failure read back. -/
theorem ParseInv_err_elim {pf : String → Option Float} {pi : String → Option Int}
    {pu : String → Option Nat} {ts : List String} {msg : String} {rest : List String}
    (h : ParseInv pf pi pu ts (.err msg rest)) : ErrShape msg := h

/-- Helper: the main refinement invariant of the parser, by induction on the
fuel.  With sufficient fuel, a successful `from_tokens` consumes at least
one token and its consumption is derivable in the spec grammar, and every
failure message has one of the documented shapes (in particular the
fuel-exhaustion branch is unreachable). -/
theorem fromTokensF_spec (pf : String → Option Float) (pi : String → Option Int)
    (pu : String → Option Nat) :
    ∀ (fuel : Nat) (ts : List String), ts.length < fuel →
      ParseInv pf pi pu ts (fromTokensF pf pi pu fuel ts) := by
  intro fuel
  induction fuel with
  | zero => intro ts h; exact absurd h (by omega)
  | succ fuel ih =>
    intro ts hfuel
    rcases ts with _ | ⟨t, ts0⟩
    · exact ParseInv_err_intro (Or.inl rfl)
    · have hf0 : ts0.length < fuel := by
        simp only [List.length_cons] at hfuel; omega
      simp only [fromTokensF]
      by_cases h1 : t = "c"
      · subst h1
        simp only [reduceIte]
        rcases ts0 with _ | ⟨v, rest1⟩
        · exact ParseInv_err_intro (Or.inr (Or.inl rfl))
        · rcases hv : pf v with _ | x <;> simp only [hv]
          · exact ParseInv_err_intro (Or.inr (Or.inr (Or.inr ⟨v, rfl⟩)))
          · exact ParseInv_ok_intro ⟨by simp only [List.length_cons]; omega, Wf.const hv⟩
      · rw [if_neg h1]
        by_cases h2 : t = "abs"
        · subst h2
          simp only [reduceIte]
          rcases hA : fromTokensF pf pi pu fuel ts0 with ⟨a, r⟩ | ⟨m, r⟩ <;> simp only [hA]
          · obtain ⟨hl, hw⟩ := ParseInv_ok_elim (hA ▸ ih ts0 hf0)
            exact ParseInv_ok_intro ⟨by simp only [List.length_cons]; omega, Wf.abs hw⟩
          · exact ParseInv_err_intro (ParseInv_err_elim (hA ▸ ih ts0 hf0))
        · rw [if_neg h2]
          by_cases h3 : t = "neg"
          · subst h3
            simp only [reduceIte]
            rcases hA : fromTokensF pf pi pu fuel ts0 with ⟨a, r⟩ | ⟨m, r⟩ <;> simp only [hA]
            · obtain ⟨hl, hw⟩ := ParseInv_ok_elim (hA ▸ ih ts0 hf0)
              exact ParseInv_ok_intro ⟨by simp only [List.length_cons]; omega, Wf.neg hw⟩
            · exact ParseInv_err_intro (ParseInv_err_elim (hA ▸ ih ts0 hf0))
          · rw [if_neg h3]
            by_cases h4 : t = "add"
            · subst h4
              simp only [reduceIte]
              rcases hA : fromTokensF pf pi pu fuel ts0 with ⟨a, r⟩ | ⟨m, r⟩ <;> simp only [hA]
              · obtain ⟨hl1, hw1⟩ := ParseInv_ok_elim (hA ▸ ih ts0 hf0)
                rcases hB : fromTokensF pf pi pu fuel r with ⟨b, r2⟩ | ⟨m2, r2⟩ <;> simp only [hB]
                · obtain ⟨hl2, hw2⟩ := ParseInv_ok_elim (hB ▸ ih r (by omega))
                  exact ParseInv_ok_intro ⟨by simp only [List.length_cons]; omega, Wf.add hw1 hw2⟩
                · exact ParseInv_err_intro (ParseInv_err_elim (hB ▸ ih r (by omega)))
              · exact ParseInv_err_intro (ParseInv_err_elim (hA ▸ ih ts0 hf0))
            · rw [if_neg h4]
              by_cases h5 : t = "mul"
              · subst h5
                simp only [reduceIte]
                rcases hA : fromTokensF pf pi pu fuel ts0 with ⟨a, r⟩ | ⟨m, r⟩ <;> simp only [hA]
                · obtain ⟨hl1, hw1⟩ := ParseInv_ok_elim (hA ▸ ih ts0 hf0)
                  rcases hB : fromTokensF pf pi pu fuel r with ⟨b, r2⟩ | ⟨m2, r2⟩ <;> simp only [hB]
                  · obtain ⟨hl2, hw2⟩ := ParseInv_ok_elim (hB ▸ ih r (by omega))
                    exact ParseInv_ok_intro ⟨by simp only [List.length_cons]; omega, Wf.mul hw1 hw2⟩
                  · exact ParseInv_err_intro (ParseInv_err_elim (hB ▸ ih r (by omega)))
                · exact ParseInv_err_intro (ParseInv_err_elim (hA ▸ ih ts0 hf0))
              · rw [if_neg h5]
                by_cases h6 : t = "min"
                · subst h6
                  simp only [reduceIte]
                  rcases hA : fromTokensF pf pi pu fuel ts0 with ⟨a, r⟩ | ⟨m, r⟩ <;> simp only [hA]
                  · obtain ⟨hl1, hw1⟩ := ParseInv_ok_elim (hA ▸ ih ts0 hf0)
                    rcases hB : fromTokensF pf pi pu fuel r with ⟨b, r2⟩ | ⟨m2, r2⟩ <;> simp only [hB]
                    · obtain ⟨hl2, hw2⟩ := ParseInv_ok_elim (hB ▸ ih r (by omega))
                      exact ParseInv_ok_intro ⟨by simp only [List.length_cons]; omega, Wf.min hw1 hw2⟩
                    · exact ParseInv_err_intro (ParseInv_err_elim (hB ▸ ih r (by omega)))
                  · exact ParseInv_err_intro (ParseInv_err_elim (hA ▸ ih ts0 hf0))
                · rw [if_neg h6]
                  by_cases h7 : t = "max"
                  · subst h7
                    simp only [reduceIte]
                    rcases hA : fromTokensF pf pi pu fuel ts0 with ⟨a, r⟩ | ⟨m, r⟩ <;> simp only [hA]
                    · obtain ⟨hl1, hw1⟩ := ParseInv_ok_elim (hA ▸ ih ts0 hf0)
                      rcases hB : fromTokensF pf pi pu fuel r with ⟨b, r2⟩ | ⟨m2, r2⟩ <;> simp only [hB]
                      · obtain ⟨hl2, hw2⟩ := ParseInv_ok_elim (hB ▸ ih r (by omega))
                        exact ParseInv_ok_intro ⟨by simp only [List.length_cons]; omega, Wf.max hw1 hw2⟩
                      · exact ParseInv_err_intro (ParseInv_err_elim (hB ▸ ih r (by omega)))
                    · exact ParseInv_err_intro (ParseInv_err_elim (hA ▸ ih ts0 hf0))
                  · rw [if_neg h7]
                    by_cases h8 : t = "pow"
                    · subst h8
                      simp only [reduceIte]
                      rcases hA : fromTokensF pf pi pu fuel ts0 with ⟨a, r⟩ | ⟨m, r⟩ <;> simp only [hA]
                      · obtain ⟨hl1, hw1⟩ := ParseInv_ok_elim (hA ▸ ih ts0 hf0)
                        rcases hB : fromTokensF pf pi pu fuel r with ⟨b, r2⟩ | ⟨m2, r2⟩ <;> simp only [hB]
                        · obtain ⟨hl2, hw2⟩ := ParseInv_ok_elim (hB ▸ ih r (by omega))
                          exact ParseInv_ok_intro ⟨by simp only [List.length_cons]; omega, Wf.pow hw1 hw2⟩
                        · exact ParseInv_err_intro (ParseInv_err_elim (hB ▸ ih r (by omega)))
                      · exact ParseInv_err_intro (ParseInv_err_elim (hA ▸ ih ts0 hf0))
                    · rw [if_neg h8]
                      by_cases h9 : t = "powi"
                      · subst h9
                        simp only [reduceIte]
                        rcases ts0 with _ | ⟨v, rest1⟩
                        · exact ParseInv_err_intro (Or.inr (Or.inl rfl))
                        · rcases hv : pi v with _ | i <;> simp only [hv]
                          · exact ParseInv_err_intro (Or.inr (Or.inr (Or.inr ⟨v, rfl⟩)))
                          · have hf1 : rest1.length < fuel := by
                              simp only [List.length_cons] at hf0; omega
                            rcases hA : fromTokensF pf pi pu fuel rest1 with ⟨a, r⟩ | ⟨m, r⟩ <;> simp only [hA]
                            · obtain ⟨hl, hw⟩ := ParseInv_ok_elim (hA ▸ ih rest1 hf1)
                              exact ParseInv_ok_intro ⟨by simp only [List.length_cons]; omega, Wf.powi hv hw⟩
                            · exact ParseInv_err_intro (ParseInv_err_elim (hA ▸ ih rest1 hf1))
                      · rw [if_neg h9]
                        by_cases h10 : t = "scalein"
                        · subst h10
                          simp only [reduceIte]
                          rcases ts0 with _ | ⟨a, rest1⟩
                          · exact ParseInv_err_intro (Or.inr (Or.inl rfl))
                          · rcases ha : pf a with _ | x <;> simp only [ha]
                            · exact ParseInv_err_intro (Or.inr (Or.inr (Or.inr ⟨a, rfl⟩)))
                            · rcases rest1 with _ | ⟨b, rest2⟩
                              · exact ParseInv_err_intro (Or.inr (Or.inl rfl))
                              · rcases hb : pf b with _ | y <;> simp only [hb]
                                · exact ParseInv_err_intro (Or.inr (Or.inr (Or.inr ⟨b, rfl⟩)))
                                · have hf2 : rest2.length < fuel := by
                                    simp only [List.length_cons] at hf0; omega
                                  rcases hA : fromTokensF pf pi pu fuel rest2 with ⟨e, r⟩ | ⟨m, r⟩ <;> simp only [hA]
                                  · obtain ⟨hl, hw⟩ := ParseInv_ok_elim (hA ▸ ih rest2 hf2)
                                    exact ParseInv_ok_intro ⟨by simp only [List.length_cons]; omega, Wf.scalein ha hb hw⟩
                                  · exact ParseInv_err_intro (ParseInv_err_elim (hA ▸ ih rest2 hf2))
                        · rw [if_neg h10]
                          by_cases h11 : t = "clamp"
                          · subst h11
                            simp only [reduceIte]
                            rcases ts0 with _ | ⟨a, rest1⟩
                            · exact ParseInv_err_intro (Or.inr (Or.inl rfl))
                            · rcases ha : pf a with _ | x <;> simp only [ha]
                              · exact ParseInv_err_intro (Or.inr (Or.inr (Or.inr ⟨a, rfl⟩)))
                              · rcases rest1 with _ | ⟨b, rest2⟩
                                · exact ParseInv_err_intro (Or.inr (Or.inl rfl))
                                · rcases hb : pf b with _ | y <;> simp only [hb]
                                  · exact ParseInv_err_intro (Or.inr (Or.inr (Or.inr ⟨b, rfl⟩)))
                                  · have hf2 : rest2.length < fuel := by
                                      simp only [List.length_cons] at hf0; omega
                                    rcases hA : fromTokensF pf pi pu fuel rest2 with ⟨e, r⟩ | ⟨m, r⟩ <;> simp only [hA]
                                    · obtain ⟨hl, hw⟩ := ParseInv_ok_elim (hA ▸ ih rest2 hf2)
                                      exact ParseInv_ok_intro ⟨by simp only [List.length_cons]; omega, Wf.clamp ha hb hw⟩
                                    · exact ParseInv_err_intro (ParseInv_err_elim (hA ▸ ih rest2 hf2))
                          · rw [if_neg h11]
                            by_cases h12 : t = "checkerboard"
                            · subst h12
                              simp only [reduceIte]
                              exact ParseInv_ok_intro ⟨by simp only [List.length_cons]; omega, Wf.checkerboard⟩
                            · rw [if_neg h12]
                              by_cases h13 : t = "perlin"
                              · subst h13
                                simp only [reduceIte]
                                rcases ts0 with _ | ⟨v, rest1⟩
                                · exact ParseInv_err_intro (Or.inr (Or.inl rfl))
                                · rcases hv : pu v with _ | seed <;> simp only [hv]
                                  · exact ParseInv_err_intro (Or.inr (Or.inr (Or.inr ⟨v, rfl⟩)))
                                  · exact ParseInv_ok_intro ⟨by simp only [List.length_cons]; omega, Wf.perlin hv⟩
                              · rw [if_neg h13]
                                by_cases h14 : t = "simplex"
                                · subst h14
                                  simp only [reduceIte]
                                  rcases ts0 with _ | ⟨v, rest1⟩
                                  · exact ParseInv_err_intro (Or.inr (Or.inl rfl))
                                  · rcases hv : pu v with _ | seed <;> simp only [hv]
                                    · exact ParseInv_err_intro (Or.inr (Or.inr (Or.inr ⟨v, rfl⟩)))
                                    · exact ParseInv_ok_intro ⟨by simp only [List.length_cons]; omega, Wf.simplex hv⟩
                                · rw [if_neg h14]
                                  exact ParseInv_err_intro (Or.inr (Or.inr (Or.inl ⟨t, rfl⟩)))

/-- Helper: completeness — every stream that the spec grammar derives is
accepted by `from_tokens` under any sufficient fuel, leaving exactly the
derivation's remainder. -/
theorem fromTokensF_complete (pf : String → Option Float) (pi : String → Option Int)
    (pu : String → Option Nat) {ts rest : List String} (h : Wf pf pi pu ts rest) :
    ∀ fuel : Nat, ts.length < fuel →
      ∃ e : NB, fromTokensF pf pi pu fuel ts = .ok e rest := by
  induction h with
  | @const v x rest0 hv =>
    intro fuel hf
    rcases fuel with _ | fuel
    · exact absurd hf (by omega)
    · exact ⟨.constant x, by simp [fromTokensF, hv]⟩
  | abs hw ih =>
    intro fuel hf
    rcases fuel with _ | fuel
    · exact absurd hf (by omega)
    · obtain ⟨e, he⟩ := ih fuel (by simp only [List.length_cons] at hf; omega)
      exact ⟨.abs e, by simp [fromTokensF, he]⟩
  | neg hw ih =>
    intro fuel hf
    rcases fuel with _ | fuel
    · exact absurd hf (by omega)
    · obtain ⟨e, he⟩ := ih fuel (by simp only [List.length_cons] at hf; omega)
      exact ⟨.neg e, by simp [fromTokensF, he]⟩
  | add h1 h2 ih1 ih2 =>
    intro fuel hf
    rcases fuel with _ | fuel
    · exact absurd hf (by omega)
    · have hm := Wf_length pf pi pu h1
      obtain ⟨a, ha⟩ := ih1 fuel (by simp only [List.length_cons] at hf; omega)
      obtain ⟨b, hb⟩ := ih2 fuel (by simp only [List.length_cons] at hf; omega)
      exact ⟨.add a b, by simp [fromTokensF, ha, hb]⟩
  | mul h1 h2 ih1 ih2 =>
    intro fuel hf
    rcases fuel with _ | fuel
    · exact absurd hf (by omega)
    · have hm := Wf_length pf pi pu h1
      obtain ⟨a, ha⟩ := ih1 fuel (by simp only [List.length_cons] at hf; omega)
      obtain ⟨b, hb⟩ := ih2 fuel (by simp only [List.length_cons] at hf; omega)
      exact ⟨.mul a b, by simp [fromTokensF, ha, hb]⟩
  | min h1 h2 ih1 ih2 =>
    intro fuel hf
    rcases fuel with _ | fuel
    · exact absurd hf (by omega)
    · have hm := Wf_length pf pi pu h1
      obtain ⟨a, ha⟩ := ih1 fuel (by simp only [List.length_cons] at hf; omega)
      obtain ⟨b, hb⟩ := ih2 fuel (by simp only [List.length_cons] at hf; omega)
      exact ⟨.min a b, by simp [fromTokensF, ha, hb]⟩
  | max h1 h2 ih1 ih2 =>
    intro fuel hf
    rcases fuel with _ | fuel
    · exact absurd hf (by omega)
    · have hm := Wf_length pf pi pu h1
      obtain ⟨a, ha⟩ := ih1 fuel (by simp only [List.length_cons] at hf; omega)
      obtain ⟨b, hb⟩ := ih2 fuel (by simp only [List.length_cons] at hf; omega)
      exact ⟨.max a b, by simp [fromTokensF, ha, hb]⟩
  | pow h1 h2 ih1 ih2 =>
    intro fuel hf
    rcases fuel with _ | fuel
    · exact absurd hf (by omega)
    · have hm := Wf_length pf pi pu h1
      obtain ⟨a, ha⟩ := ih1 fuel (by simp only [List.length_cons] at hf; omega)
      obtain ⟨b, hb⟩ := ih2 fuel (by simp only [List.length_cons] at hf; omega)
      exact ⟨.pow a b, by simp [fromTokensF, ha, hb]⟩
  | @powi v i ts1 rest0 hv hw ih =>
    intro fuel hf
    rcases fuel with _ | fuel
    · exact absurd hf (by omega)
    · obtain ⟨e, he⟩ := ih fuel (by simp only [List.length_cons] at hf; omega)
      exact ⟨.powI i e, by simp [fromTokensF, hv, he]⟩
  | @scalein a b x y ts1 rest0 ha hb hw ih =>
    intro fuel hf
    rcases fuel with _ | fuel
    · exact absurd hf (by omega)
    · obtain ⟨e, he⟩ := ih fuel (by simp only [List.length_cons] at hf; omega)
      exact ⟨.scaleInput x y e, by simp [fromTokensF, ha, hb, he]⟩
  | @clamp a b x y ts1 rest0 ha hb hw ih =>
    intro fuel hf
    rcases fuel with _ | fuel
    · exact absurd hf (by omega)
    · obtain ⟨e, he⟩ := ih fuel (by simp only [List.length_cons] at hf; omega)
      exact ⟨.clamp x y e, by simp [fromTokensF, ha, hb, he]⟩
  | checkerboard =>
    intro fuel hf
    rcases fuel with _ | fuel
    · exact absurd hf (by omega)
    · exact ⟨.checkerboard, by simp [fromTokensF]⟩
  | @perlin v seed rest0 hv =>
    intro fuel hf
    rcases fuel with _ | fuel
    · exact absurd hf (by omega)
    · exact ⟨.perlin seed, by simp [fromTokensF, hv]⟩
  | @simplex v seed rest0 hv =>
    intro fuel hf
    rcases fuel with _ | fuel
    · exact absurd hf (by omega)
    · exact ⟨.simplex seed, by simp [fromTokensF, hv]⟩

end ValenceTerrain

namespace ValenceTerrain

/-- C2 counterexample: the claim as stated fails on the code.  With layers
[(40000, DIRT), (40000, GRASS)] (both valid `u16` thicknesses, total 80000),
H = 128 and height sample 10, the `u16` sum of lib.rs:231 wraps to
`80000 mod 2^16 = 14464`; the discard loop then stops inside the bottom
layer and the whole column is filled with DIRT — cell `h - 1 = 9` does not
hold the topmost layer's material (GRASS) and cell `10 ≥ h` is not air. -/
theorem claim2_wrap_counterexample :
    synthColumn Blk.stone [(40000, Blk.dirt), (40000, Blk.grass)] 128 10
      = some (List.replicate 128 Blk.dirt) ∧
    ¬ ((List.replicate 128 Blk.dirt).getD 9 Blk.air = Blk.grass) ∧
    ¬ ((List.replicate 128 Blk.dirt).getD 10 Blk.air = Blk.air) := by
  decide

/-- C2 (amended): for every height sample and every nonempty
positive-thickness layer list whose total thickness is below `2^16` (so the
`u16` sum of lib.rs:231 does not wrap), with `h` the sample clamped to
`[1, H-1]`, the synthesized column is defined (no panic), has `H` cells,
carries the topmost configured layer's material at cell `h - 1`, and is air
at every cell `y ≥ h` — however much of the stack was truncated. -/
theorem claim2_top_layer_and_air (block : Blk) (layers : Layers) (H : Nat) (nse : Int)
    (hne : layers ≠ []) (hpos : ∀ p ∈ layers, 0 < p.1) (hH : 2 ≤ H)
    (hsum : sumThickness layers < 65536) :
    ∃ col, synthColumn block layers H nse = some col ∧
      col.length = H ∧
      col.getD ((max 1 (min nse ((H : Int) - 1))).toNat - 1) Blk.air
        = (layers.getLast hne).2 ∧
      ∀ y : Nat, (max 1 (min nse ((H : Int) - 1))).toNat ≤ y → y < H →
        col.getD y Blk.air = Blk.air := by
  have hsurf : surfaceHeight layers = sumThickness layers := Nat.mod_eq_of_lt hsum
  set h : Int := max 1 (min nse ((H : Int) - 1)) with hh
  have h1 : 1 ≤ h := le_max_left _ _
  have h2 : h ≤ (H : Int) - 1 := max_le (by omega) (min_le_right _ _)
  rcases discardLoop_spec layers (h - (sumThickness layers : Int)) (-1) (by omega) with
    ⟨k, hk, hd, hp⟩
  have hsplit : sumThickness (layers.take k) + sumThickness (layers.drop k)
      = sumThickness layers := by
    rw [sumThickness, sumThickness, sumThickness, ← List.sum_append, ← List.map_append,
      List.take_append_drop]
  have hs : (sumThickness (layers.take k) : Int) + (sumThickness (layers.drop k) : Int)
      = (sumThickness layers : Int) := by exact_mod_cast hsplit
  set r0 : Int := h - (sumThickness layers : Int) + (sumThickness (layers.take k) : Int)
    with hr0
  have hr0sum : r0 + (sumThickness (layers.drop k) : Int) = h := by rw [hr0]; omega
  have hcnt : r0.toNat + sumThickness (layers.drop k) = h.toNat := by omega
  have hbound : r0.toNat + sumThickness (layers.drop k) ≤ H := by omega
  have hclamp : clampI nse 1 ((H : Int) - 1) = some h := by
    rw [clampI, if_pos (by omega : (1 : Int) ≤ (H : Int) - 1), ← hh]
  have hcol : synthColumn block layers H nse
      = some (fillLoop block layers H r0 (-1 + (k : Int))) := by
    simp only [synthColumn, hsurf, hclamp, hd, Option.pure_def, Option.bind_eq_bind,
      Option.some_bind]
  have hstack := fillLoop_stack block layers hpos (layers.drop k) k rfl H r0 hp hbound
  rw [show (k : Int) - 1 = -1 + (k : Int) from by ring] at hstack
  refine ⟨fillLoop block layers H r0 (-1 + (k : Int)), hcol,
    fillLoop_length block layers H r0 (-1 + (k : Int)), ?_, ?_⟩
  · -- topmost material at cell h - 1
    rw [hstack]
    by_cases hD : layers.drop k = []
    · -- fully truncated down to (part of) the last layer
      have hklen : layers.length ≤ k := List.drop_eq_nil_iff.mp hD
      have hkeq : k = layers.length := le_antisymm hk hklen
      have hlen1 : 1 ≤ layers.length := by
        cases layers
        · exact absurd rfl hne
        · simp
      have hcnt' : r0.toNat = h.toNat := by
        rw [hD] at hcnt
        simpa [sumThickness] using hcnt
      rw [hD, show flatRep [] = [] from rfl, List.append_nil]
      have hi : h.toNat - 1 < (List.replicate r0.toNat
          (blkAt block layers (-1 + (k : Int)))).length := by
        simp only [List.length_replicate]; omega
      rw [getD_append_left_len _ hi, List.getD_eq_getElem _ _ hi,
        List.getElem_replicate]
      rw [blkAt, if_neg (by omega : ¬ (-1 + (k : Int) = -1))]
      have htn : (-1 + (k : Int)).toNat = layers.length - 1 := by omega
      rw [htn, List.getD_eq_getElem layers (0, Blk.air) (by omega),
        List.getLast_eq_getElem layers hne]
    · -- some layers survive: the stack ends with the last layer's material
      have hposD : ∀ p ∈ layers.drop k, 0 < p.1 :=
        fun p hp' => hpos p (List.drop_subset k layers hp')
      rcases flatRep_last (layers.drop k) hposD hD with ⟨pre, hpre, hplen⟩
      have hlastD : (layers.drop k).getLast hD = layers.getLast hne := by
        have hq : layers.getLast? = (layers.drop k).getLast? := by
          conv_lhs => rw [← List.take_append_drop k layers]
          rw [List.getLast?_append_of_ne_nil (layers.take k) hD]
        rw [List.getLast?_eq_getLast layers hne,
          List.getLast?_eq_getLast (layers.drop k) hD] at hq
        exact (Option.some_injective _ hq).symm
      have hsumD1 : 1 ≤ sumThickness (layers.drop k) := by omega
      have hi : h.toNat - 1 < (List.replicate r0.toNat
          (blkAt block layers (-1 + (k : Int))) ++ flatRep (layers.drop k)).length := by
        simp only [List.length_append, List.length_replicate, flatRep_length]
        omega
      rw [getD_append_left_len _ hi, hpre,
        getD_append_right_len _ (by simp only [List.length_replicate]; omega)]
      simp only [List.length_replicate]
      rw [getD_append_right_len _ (by omega)]
      rw [show h.toNat - 1 - r0.toNat - pre.length = 0 from by omega, hlastD]
      rfl
  · -- air from cell h upward
    intro y hy hyH
    rw [hstack,
      getD_append_right_len _ (by
        simp only [List.length_append, List.length_replicate, flatRep_length]
        omega)]
    exact getD_replicate_self _ _ _

/-- C2 witness: at the truncating profile of C4 (layers [(3, DIRT),
(1, GRASS)], H = 128, sample 2) the column exists, has 128 cells, holds
GRASS at cell `h - 1 = 1`, and air from cell 2 up. -/
theorem claim2_top_layer_and_air_witness :
    ∃ col, synthColumn Blk.stone [(3, Blk.dirt), (1, Blk.grass)] 128 2 = some col ∧
      col.length = 128 ∧
      col.getD ((max 1 (min 2 ((128 : Int) - 1))).toNat - 1) Blk.air
        = (([(3, Blk.dirt), (1, Blk.grass)] : Layers).getLast (by simp)).2 ∧
      ∀ y : Nat, (max 1 (min 2 ((128 : Int) - 1))).toNat ≤ y → y < 128 →
        col.getD y Blk.air = Blk.air :=
  claim2_top_layer_and_air Blk.stone [(3, Blk.dirt), (1, Blk.grass)] 128 2
    (by simp) (by decide) (by omega) (by decide)

/-- C3: with profile base=STONE, layers [(3, DIRT), (1, GRASS)], height 128
and a noise function returning the constant 10 everywhere, every synthesized
column is STONE on [0,6), DIRT on [6,9), GRASS at 9, air on [10,128). -/
theorem claim3_column_const10 (chunkX chunkZ offX offZ : Int) :
    workerColumn .stone [(3, .dirt), (1, .grass)] 128 (fun _ _ => 10)
      chunkX chunkZ offX offZ = some column10 := by
  show synthColumn .stone [(3, .dirt), (1, .grass)] 128 10 = some column10
  decide

/-- C4: same profile, noise constant 2 (< total surface thickness 4): the
column is DIRT at cell 0, GRASS at cell 1, air on [2,128), and contains no
STONE cell. -/
theorem claim4_column_const2 (chunkX chunkZ offX offZ : Int) :
    workerColumn .stone [(3, .dirt), (1, .grass)] 128 (fun _ _ => 2)
      chunkX chunkZ offX offZ = some column2 ∧ Blk.stone ∉ column2 := by
  refine ⟨?_, by decide⟩
  show synthColumn .stone [(3, .dirt), (1, .grass)] 128 2 = some column2
  decide

/-- C5: `queue_pos` (lib.rs:168-183) is a no-op when the coordinate is in
world storage; turns `Queued(p)` into `Queued(min p dist)`; leaves an
`InFlight` entry untouched; and otherwise inserts `Queued(dist)`, where
`dist` is the squared distance from the observer's view center to the
chunk. -/
theorem claim5_enqueue (chunkAt : ChunkPos → Bool) (viewPos : ChunkPos)
    (pending : Pending) (pos : ChunkPos) :
    (chunkAt pos = true → queuePos chunkAt viewPos pending pos = pending) ∧
    (∀ p : Nat, chunkAt pos = false → lookupPending pending pos = some (some p) →
      lookupPending (queuePos chunkAt viewPos pending pos) pos
        = some (some (min p (distanceSquared viewPos pos)))) ∧
    (chunkAt pos = false → lookupPending pending pos = some none →
      queuePos chunkAt viewPos pending pos = pending) ∧
    (chunkAt pos = false → lookupPending pending pos = none →
      lookupPending (queuePos chunkAt viewPos pending pos) pos
        = some (some (distanceSquared viewPos pos))) := by
  refine ⟨fun hst => by simp [queuePos, hst], fun p hst hq => ?_, fun hst hin => ?_,
    fun hst hnone => ?_⟩
  · rw [queuePos, if_neg (by simp [hst]), hq]
    rw [lookupPending_mapUpdate, hq]
    rfl
  · rw [queuePos, if_neg (by simp [hst]), hin]
  · rw [queuePos, if_neg (by simp [hst]), hnone]
    exact lookupPending_append_of_none hnone _

/-- C5 witness: a fresh coordinate not in storage is inserted as
`Queued(dist)` with `dist = 1² + 2² = 5`. -/
theorem claim5_enqueue_witness :
    lookupPending
      (queuePos (fun _ => false) ⟨0, 0⟩ [(⟨7, 7⟩, none)] ⟨1, 2⟩) ⟨1, 2⟩
      = some (some 5) :=
  (claim5_enqueue (fun _ => false) ⟨0, 0⟩ [(⟨7, 7⟩, none)] ⟨1, 2⟩).2.2.2
    (by decide) (by decide)

/-- C1: the literal dispatch code of `send_recv_chunks` does NOT revert an
unsent entry to `Queued`.  At the concrete failing input — one `Queued(5)`
entry and a `try_send` that fails — nothing is sent, yet the entry is left
`InFlight` (`none`) rather than the `Queued(5)` the claim requires. -/
theorem claim1_send_failure_leaves_inflight :
    (flushDispatch (fun _ => false) [(⟨0, 0⟩, some 5)]).2 = [] ∧
    lookupPending (flushDispatch (fun _ => false) [(⟨0, 0⟩, some 5)]).1 ⟨0, 0⟩
      = some none := by
  constructor
  · show ((toSendSorted [(⟨0, 0⟩, some 5)]).map (·.2)).filter (fun _ => false) = []
    rw [toSendSorted,
      show takeQueued [(⟨0, 0⟩, some 5)] = [(5, ⟨0, 0⟩)] from rfl]
    simp
  · decide

/-- C6: with the `HashMap`'s key uniqueness, one flush collects each
coordinate at most once into the (sorted) send list; a coordinate whose
entry is `InFlight` is never in the send list; and enqueuing never turns an
`InFlight` entry back into `Queued` (so a coordinate dispatched once cannot
be dispatched again before its result is applied). -/
theorem claim6_dedup (pending : Pending) (hnd : (pending.map Prod.fst).Nodup) :
    ((toSendSorted pending).map (·.2)).Nodup ∧
    (∀ pos, lookupPending pending pos = some none →
      pos ∉ (toSendSorted pending).map (·.2)) ∧
    (∀ chunkAt viewPos q pos, lookupPending pending pos = some none →
      lookupPending (queuePos chunkAt viewPos pending q) pos = some none) := by
  have hperm : ((toSendSorted pending).map (·.2)).Perm
      ((takeQueued pending).map (·.2)) :=
    (List.mergeSort_perm (takeQueued pending) _).map _
  have hnd' : ((takeQueued pending).map (·.2)).Nodup :=
    hnd.sublist (takeQueued_map_snd_sublist pending)
  refine ⟨hperm.nodup_iff.mpr hnd', fun pos hin hmem => ?_,
    fun chunkAt viewPos q pos hin => ?_⟩
  · have hmem' : pos ∈ (takeQueued pending).map (·.2) := hperm.mem_iff.mp hmem
    rcases List.mem_map.1 hmem' with ⟨x, hx, hx2⟩
    rcases List.mem_filterMap.1 hx with ⟨e, he, hfe⟩
    rcases h2 : e.2 with _ | pri
    · rw [h2] at hfe; cases hfe
    · rw [h2] at hfe
      have hx1 : x = (pri, e.1) := by cases hfe; rfl
      have hkey : e.1 = pos := by rw [← hx2, hx1]
      have heq := eq_of_mem_pending_of_nodup hnd he (lookupPending_mem hin) hkey
      rw [heq] at h2
      cases h2
  · unfold queuePos
    by_cases hca : chunkAt q = true
    · rw [if_pos hca]; exact hin
    · rw [if_neg hca]
      by_cases hqp : q = pos
      · subst hqp
        rw [hin]
        exact hin
      · rcases hl : lookupPending pending q with _ | v
        · exact lookupPending_append_left hin _
        · rcases v with _ | pri
          · exact hin
          · exact (lookupPending_mapUpdate_ne hqp pending _).trans hin

/-- C6 witness: on the table `{(7,7) ↦ InFlight, (1,2) ↦ Queued(5)}` the
`InFlight` coordinate is not in the flush's send list. -/
theorem claim6_dedup_witness :
    (⟨7, 7⟩ : ChunkPos) ∉ (toSendSorted [(⟨7, 7⟩, none), (⟨1, 2⟩, some 5)]).map (·.2) :=
  (claim6_dedup [(⟨7, 7⟩, none), (⟨1, 2⟩, some 5)] (by decide)).2.1 ⟨7, 7⟩ (by decide)

/-- C7: parsing succeeds exactly on the well-formed expression strings of
the grammar (one complete expression, nothing after it), and every failure
carries one of the documented descriptive errors: trailing tokens, truncated
input, a bad numeric literal, or an unknown token. -/
theorem claim7_parse_success_and_errors (pf : String → Option Float)
    (pi : String → Option Int) (pu : String → Option Nat) (s : String) :
    ((∃ e, parseNoise pf pi pu s = .ok e) ↔ Wf pf pi pu (tokenize s) []) ∧
    (∀ msg, parseNoise pf pi pu s = .error msg →
      msg = "too many tokens" ∨ ErrShape msg) := by
  have hspec := fromTokensF_spec pf pi pu ((tokenize s).length + 1) (tokenize s)
    (by omega)
  constructor
  · constructor
    · rintro ⟨e, he⟩
      simp only [parseNoise] at he
      rcases hF : fromTokens pf pi pu (tokenize s) with ⟨e', rest⟩ | ⟨m, rest⟩ <;>
        simp only [hF] at he
      · by_cases hr : rest = []
        · subst hr
          rw [fromTokens] at hF
          exact (ParseInv_ok_elim (hF ▸ hspec)).2
        · simp [hr] at he
      · by_cases hr : rest = [] <;> simp [hr] at he
    · intro hwf
      obtain ⟨e, he⟩ := fromTokensF_complete pf pi pu hwf ((tokenize s).length + 1)
        (by omega)
      refine ⟨e, ?_⟩
      simp [parseNoise, fromTokens, he]
  · intro msg hmsg
    simp only [parseNoise] at hmsg
    rcases hF : fromTokens pf pi pu (tokenize s) with ⟨e', rest⟩ | ⟨m, rest⟩ <;>
      simp only [hF] at hmsg
    · by_cases hr : rest = [] <;> simp [hr] at hmsg
      exact Or.inl hmsg.symm
    · by_cases hr : rest = [] <;> simp [hr] at hmsg
      · rw [fromTokens] at hF
        exact Or.inr (hmsg ▸ ParseInv_err_elim (hF ▸ hspec))
      · exact Or.inl hmsg.symm

/-- C7 witness: on the input `"bogus"` (with numeric parsers that accept
nothing) the parse fails and its message has the unknown-token shape. -/
theorem claim7_parse_success_and_errors_witness :
    "Invalid token: bogus" = "too many tokens" ∨ ErrShape "Invalid token: bogus" :=
  (claim7_parse_success_and_errors (fun _ => none) (fun _ => none) (fun _ => none)
    "bogus").2 "Invalid token: bogus" (by rfl)

/-- C8: `update_client_views` uses each observer's own view untouched when
the override is 0, and with a nonzero override both the current and the
previous view are given radius `min (observer's current distance) override`
before the diff. -/
theorem claim8_render_dist (renderDist : Nat) (view oldView : ChunkView) :
    (renderDist = 0 → clipViews renderDist view oldView = (view, oldView)) ∧
    (renderDist ≠ 0 →
      clipViews renderDist view oldView
        = (withDist view (min view.dist renderDist),
           withDist oldView (min view.dist renderDist))) := by
  constructor
  · intro h0; simp [clipViews, h0]
  · intro hne
    simp only [clipViews, if_pos hne]
    simp [withDist, Nat.min_assoc]

/-- C8 witness: override 2 caps a distance-5 current view and a distance-7
previous view both to 2. -/
theorem claim8_render_dist_witness :
    clipViews 2 ⟨⟨0, 0⟩, 5⟩ ⟨⟨1, 1⟩, 7⟩ = (⟨⟨0, 0⟩, 2⟩, ⟨⟨1, 1⟩, 2⟩) :=
  (claim8_render_dist 2 ⟨⟨0, 0⟩, 5⟩ ⟨⟨1, 1⟩, 7⟩).2 (by decide)

/-- C9: `reload` builds a brand-new generator state — empty pending table,
fresh channels, reload flag set, render distance carried over — and leaves
the world storage exactly as it was. -/
theorem claim9_reload {α : Type} (storage : ChunkPos → α) (g : Gen) (fresh : Nat)
    (hfresh : fresh ≠ g.channels) :
    (reloadWithStorage storage g fresh).1 = storage ∧
    (reloadWithStorage storage g fresh).2.pending = [] ∧
    (reloadWithStorage storage g fresh).2.needsReload = true ∧
    (reloadWithStorage storage g fresh).2.channels ≠ g.channels ∧
    (reloadWithStorage storage g fresh).2.renderDist = g.renderDist :=
  ⟨rfl, rfl, rfl, hfresh, rfl⟩

/-- C9 witness: reloading a generator with one pending entry and channel
pair 0 using fresh channel pair 1 empties the table, keeps storage, sets the
flag. -/
theorem claim9_reload_witness :
    (reloadWithStorage (fun _ => (0 : Nat)) ⟨[(⟨0, 0⟩, some 3)], 0, 8, false⟩ 1).1
        = (fun _ => (0 : Nat)) ∧
    (reloadWithStorage (fun _ => (0 : Nat)) ⟨[(⟨0, 0⟩, some 3)], 0, 8, false⟩ 1).2.pending
        = [] ∧
    (reloadWithStorage (fun _ => (0 : Nat)) ⟨[(⟨0, 0⟩, some 3)], 0, 8, false⟩ 1).2.needsReload
        = true ∧
    (reloadWithStorage (fun _ => (0 : Nat)) ⟨[(⟨0, 0⟩, some 3)], 0, 8, false⟩ 1).2.channels
        ≠ (Gen.mk [(⟨0, 0⟩, some 3)] 0 8 false).channels ∧
    (reloadWithStorage (fun _ => (0 : Nat)) ⟨[(⟨0, 0⟩, some 3)], 0, 8, false⟩ 1).2.renderDist
        = (Gen.mk [(⟨0, 0⟩, some 3)] 0 8 false).renderDist :=
  claim9_reload (fun _ => (0 : Nat)) ⟨[(⟨0, 0⟩, some 3)], 0, 8, false⟩ 1 (by decide)

/-- C10: for any clamped height `h ≥ 1` and positive layer thicknesses the
worker's `while rem <= 0` loop terminates with `curidx` strictly below the
layer count (no out-of-bounds access), and on the empty layer list it
returns immediately without executing its body. -/
theorem claim10_discard_safe (layers : Layers) (h : Int)
    (h1 : 1 ≤ h) (_hpos : ∀ p ∈ layers, 0 < p.1) :
    (∃ rem curidx, discardLoop (h - (sumThickness layers : Int)) (-1) layers
        = some (rem, curidx) ∧ curidx < (layers.length : Int)) ∧
    discardLoop (h - (sumThickness ([] : Layers) : Int)) (-1) [] = some (h, -1) := by
  constructor
  · rcases discardLoop_total layers (h - (sumThickness layers : Int)) (-1)
      (by omega) with ⟨r, c, hd, _, hc⟩
    exact ⟨r, c, hd, by omega⟩
  · simp only [sumThickness, List.map_nil, List.sum_nil, Nat.cast_zero, sub_zero]
    rw [discardLoop, if_neg (by omega)]

/-- C10 witness: at `h = 2` over layers `[(3, DIRT), (1, GRASS)]` the loop
stops in bounds, and on `[]` it returns `(2, -1)` untouched. -/
theorem claim10_discard_safe_witness :
    (∃ rem curidx,
        discardLoop (2 - (sumThickness [(3, Blk.dirt), (1, Blk.grass)] : Int)) (-1)
          [(3, Blk.dirt), (1, Blk.grass)] = some (rem, curidx) ∧
        curidx < (([(3, Blk.dirt), (1, Blk.grass)] : Layers).length : Int)) ∧
    discardLoop (2 - (sumThickness ([] : Layers) : Int)) (-1) [] = some (2, -1) :=
  claim10_discard_safe [(3, .dirt), (1, .grass)] 2 (by decide) (by decide)

end ValenceTerrain
